import Mathlib

/-!
Shallow embedding of the synthetic poly-repo history generator
(src/scripts/generate_poly_repo.py).  The script fetches a user's public
events, keeps the push events, sorts them by their creation date, replays
each event's commits on a branch named after the final path segment of the
originating repository (at most `MAX_REPOS` distinct repositories ever get
a branch), and finally octopus-merges all created branches into `main`.

Git commands executed through `run_cmd` are modelled as an explicit
operation trace together with the pieces of git state the script observes
(the current branch and the commits authored on each branch).  Failures of
`subprocess.check_call` are modelled by an oracle `fails : Op → Bool`; a
raised `CalledProcessError` corresponds to an `Except.error` carrying the
run state at the moment of the failure.
-/

namespace GenPolyRepo

/-- One entry of `payload.commits` in the event feed: a record with a
single `message` field. -/
structure Commit where
  message : String
  deriving DecidableEq, Repr

/-- A raw feed event as consumed by `main`: its `type`, `repo.name`,
`created_at`, and `payload.commits` (with the `.get("commits", [])`
default already applied by the parse). -/
structure Event where
  type : String
  repoName : String
  createdAt : String
  commits : List Commit
  deriving DecidableEq, Repr

/-- Configuration constant `MAX_REPOS = 5` of the script. -/
def MAX_REPOS : Nat := 5

/-- Split of a character list at every occurrence of a separator
character, with the semantics of the python `str.split(sep)` for a
one-character separator: the empty string yields one empty group, and
adjacent separators yield empty groups. -/
def splitChar (sep : Char) : List Char → List (List Char)
  | [] => [[]]
  | c :: cs =>
    if c = sep then [] :: splitChar sep cs
    else
      match splitChar sep cs with
      | [] => [[c]]
      | g :: gs => (c :: g) :: gs

/-- Final path segment of a repository name: `repo_name.split("/")[-1]`. -/
def lastSegment (s : String) : String :=
  String.mk ((splitChar (Char.ofNat 47) s.data).getLastD [])

/-- First line of a commit message: `msg.split("\n")[0]`. -/
def firstLine (s : String) : String :=
  String.mk ((splitChar (Char.ofNat 10) s.data).headD [])

/-- One git command issued through `run_cmd`. -/
inductive Op where
  | gitInit : Op
  | configUser : String → String → Op
  | rootCommit : String → Op
  | renameMain : Op
  | checkout : String → Op
  | createBranch : String → Op
  | commitChange : String → String → Op
  | mergeBranches : List String → Op
  deriving DecidableEq, Repr

/-- A recorded change: the commit message together with the date both
`GIT_AUTHOR_DATE` and `GIT_COMMITTER_DATE` are set to. -/
structure Change where
  message : String
  authoredAt : String
  deriving DecidableEq, Repr

/-- The state of one run: the trace of successfully executed git
commands, the three python-level sets (`repos_seen`, `created_branches`,
`active_branches`, kept as insertion-ordered duplicate-free lists), the
current git branch, and the global log of authored commits, each tagged
with the branch it was authored on. -/
structure RunState where
  ops : List Op
  reposSeen : List String
  createdBranches : List String
  activeBranches : List String
  current : String
  log : List (String × Change)
  deriving DecidableEq, Repr

/-- State at the start of `main`, before any git command has run.  The
initial branch is called `main` from the start; the script reaches the
same point via `git branch -M main` before any per-event command. -/
def initState : RunState :=
  { ops := [], reposSeen := [], createdBranches := [], activeBranches := [],
    current := "main", log := [] }

/-- Effect of one successfully executed git command on the modelled git
state: every command is appended to the trace, checkouts move the current
branch, and commits append to the log of the current branch. -/
def applyOp (op : Op) (s : RunState) : RunState :=
  match op with
  | Op.checkout b => { s with ops := s.ops ++ [op], current := b }
  | Op.createBranch b => { s with ops := s.ops ++ [op], current := b }
  | Op.rootCommit d =>
      { s with ops := s.ops ++ [op],
               log := s.log ++ [(s.current, ⟨"Init History", d⟩)] }
  | Op.commitChange m d =>
      { s with ops := s.ops ++ [op], log := s.log ++ [(s.current, ⟨m, d⟩)] }
  | _ => { s with ops := s.ops ++ [op] }

/-- Run one git command: if the failure oracle flags it the command
raises (error carrying the unchanged state), otherwise its effect is
applied. -/
def runOp (fails : Op → Bool) (op : Op) (s : RunState) : Except RunState RunState :=
  if fails op then Except.error s else Except.ok (applyOp op s)

/-- Run a list of git commands in order, stopping at the first failure. -/
def runOps (fails : Op → Bool) : List Op → RunState → Except RunState RunState
  | [], s => Except.ok s
  | op :: rest, s =>
    match runOp fails op s with
    | Except.error t => Except.error t
    | Except.ok t => runOps fails rest t

/-- The commit loop of one event: for each payload commit, author an
empty commit whose message is the branch name, a colon and the first
line of the commit message, dated at the event's creation date. -/
def replayCommits (fails : Op → Bool) (shortName date : String) :
    List Commit → RunState → Except RunState RunState
  | [], s => Except.ok s
  | c :: cs, s =>
    match runOp fails (Op.commitChange (shortName ++ ": " ++ firstLine c.message) date) s with
    | Except.error t => Except.error t
    | Except.ok t => replayCommits fails shortName date cs t

/-- Branch management for one event: if the branch does not exist yet,
check out `main`, create the branch from it and add it to
`created_branches` and `active_branches`; otherwise just check the
branch out. -/
def switchBranch (fails : Op → Bool) (shortName : String) (s : RunState) :
    Except RunState RunState :=
  if shortName ∈ s.createdBranches then
    runOp fails (Op.checkout shortName) s
  else
    match runOp fails (Op.checkout "main") s with
    | Except.error t => Except.error t
    | Except.ok t =>
      match runOp fails (Op.createBranch shortName) t with
      | Except.error u => Except.error u
      | Except.ok u =>
        Except.ok { u with createdBranches := u.createdBranches ++ [shortName],
                           activeBranches := u.activeBranches ++ [shortName] }

/-- Payload commits of an event with the placeholder applied: if the
list is empty it is replaced by one `Update` commit. -/
def commitsOf (e : Event) : List Commit :=
  if e.commits.isEmpty then [⟨"Update"⟩] else e.commits

/-- Branch management followed by the commit loop for one event. -/
def replayEvent (fails : Op → Bool) (shortName : String) (e : Event) (s : RunState) :
    Except RunState RunState :=
  match switchBranch fails shortName s with
  | Except.error t => Except.error t
  | Except.ok t => replayCommits fails shortName e.createdAt (commitsOf e) t

/-- One iteration of the replay loop: derive the short name, apply the
cap filter (an unseen project with the cap reached is dropped by
`continue`), record the project as seen, and replay the event. -/
def processEvent (fails : Op → Bool) (maxRepos : Nat) (s : RunState) (e : Event) :
    Except RunState RunState :=
  if lastSegment e.repoName ∈ s.reposSeen then
    replayEvent fails (lastSegment e.repoName) e s
  else if maxRepos ≤ s.reposSeen.length then
    Except.ok s
  else
    replayEvent fails (lastSegment e.repoName) e
      { s with reposSeen := s.reposSeen ++ [lastSegment e.repoName] }

/-- The replay loop over the sorted push events. -/
def replayLoop (fails : Op → Bool) (maxRepos : Nat) :
    List Event → RunState → Except RunState RunState
  | [], s => Except.ok s
  | e :: es, s =>
    match processEvent fails maxRepos s e with
    | Except.error t => Except.error t
    | Except.ok t => replayLoop fails maxRepos es t

/-- Strict lexicographic comparison of character lists by code point,
the comparison python uses between strings: the first differing
character decides, and a proper prefix is smaller. -/
def charLT : List Char → List Char → Bool
  | _, [] => false
  | [], _ :: _ => true
  | a :: as, b :: bs => if a < b then true else if b < a then false else charLT as bs

/-- Strict comparison of strings, python's `a < b`. -/
def strLT (a b : String) : Bool :=
  charLT a.data b.data

/-- Comparison of strings, python's `a <= b`, that is not `b < a`. -/
def strLE (a b : String) : Bool :=
  ! strLT b a

/-- Order in which the push events are sorted:
`key=lambda x: x["created_at"]`. -/
def eventLE (a b : Event) : Prop :=
  strLE a.createdAt b.createdAt = true

instance : DecidableRel eventLE :=
  fun a b => instDecidableEqBool (strLE a.createdAt b.createdAt) true

/-- Order in which the branch list is sorted before the final merge. -/
def stringLE (a b : String) : Prop :=
  strLE a b = true

instance : DecidableRel stringLE :=
  fun a b => instDecidableEqBool (strLE a b) true

/-- Push events of the feed: the events of type `PushEvent`, stably
sorted ascending by creation date.  Python's `list.sort` is a stable
sort; it is modelled by insertion sort, which is stable for the same
total preorder and therefore produces the same list. -/
def pushEventsOf (events : List Event) : List Event :=
  List.insertionSort eventLE (events.filter (fun e => e.type == "PushEvent"))

/-- Setup commands run before the replay loop: `git init`, the two
`git config` calls, the empty root commit dated at the first push
event's date, and the rename of the initial branch to `main`. -/
def setupOps (firstDate : String) : List Op :=
  [Op.gitInit,
   Op.configUser "user.email" "bot@example.com",
   Op.configUser "user.name" "ActivityBot",
   Op.rootCommit firstDate,
   Op.renameMain]

/-- Which exit path a run took. -/
inductive Reason where
  | success : Reason
  | feedError : Reason
  | emptyHistory : Reason
  | adapterError : Reason
  deriving DecidableEq, Repr

/-- Observable outcome of a run: the process exit code, which exit path
produced it, whether the final merge failed (the caught exception whose
warning is printed), and the final run state. -/
structure RunOutput where
  exitCode : Nat
  reason : Reason
  mergeFailed : Bool
  finalState : RunState
  deriving DecidableEq, Repr

/-- Final merge step: check out `main` (outside any handler, so a
failure here is fatal), then, if any branch is active, merge the
lexicographically sorted active branches; a failure of the merge itself
is caught, logged and the run still succeeds. -/
def reconcile (fails : Op → Bool) (s : RunState) : RunOutput :=
  match runOp fails (Op.checkout "main") s with
  | Except.error t => ⟨1, Reason.adapterError, false, t⟩
  | Except.ok t =>
    if t.activeBranches.isEmpty then ⟨0, Reason.success, false, t⟩
    else
      match runOp fails (Op.mergeBranches (List.insertionSort stringLE t.activeBranches)) t with
      | Except.error u => ⟨0, Reason.success, true, u⟩
      | Except.ok u => ⟨0, Reason.success, false, u⟩

/-- The body of `main` after the feed has been fetched: filter and sort
the push events, exit 1 if none remain, otherwise run the setup
commands, the replay loop and the final merge; an uncaught command
failure exits with code 1. -/
def generate (fails : Op → Bool) (maxRepos : Nat) (events : List Event) : RunOutput :=
  match pushEventsOf events with
  | [] => ⟨1, Reason.emptyHistory, false, initState⟩
  | first :: rest =>
    match runOps fails (setupOps first.createdAt) initState with
    | Except.error t => ⟨1, Reason.adapterError, false, t⟩
    | Except.ok t =>
      match replayLoop fails maxRepos (first :: rest) t with
      | Except.error u => ⟨1, Reason.adapterError, false, u⟩
      | Except.ok u => reconcile fails u

/-- Whole run of `main`: a feed of `none` models a failed or malformed
feed fetch, which exits with code 1 before anything else happens. -/
def pythonMain (fails : Op → Bool) (feed : Option (List Event)) : RunOutput :=
  match feed with
  | none => ⟨1, Reason.feedError, false, initState⟩
  | some events => generate fails MAX_REPOS events

/-- Failure oracle under which every git command succeeds. -/
def noFail : Op → Bool := fun _ => false

/-- State carried by a run result, whether it succeeded or failed. -/
def stateOf : Except RunState RunState → RunState
  | Except.ok s => s
  | Except.error s => s

/-- Changes of the global log that were authored on branch `b`, in
authoring order. -/
def logOf (log : List (String × Change)) (b : String) : List Change :=
  (log.filter (fun p => p.1 == b)).map Prod.snd

/-- Changes authored on branch `b` in state `s`, in authoring order. -/
def timelineLog (s : RunState) (b : String) : List Change :=
  logOf s.log b

/-- Log entries appended by replaying the given commits of one event on
branch `n` at date `d`. -/
def eventChanges (n d : String) (cs : List Commit) : List (String × Change) :=
  cs.map (fun c => (n, ⟨n ++ ": " ++ firstLine c.message, d⟩))

/-! Bridge between the executable comparisons and the string order. -/

theorem charLT_iff : ∀ as bs : List Char, charLT as bs = true ↔ as < bs
  | [], [] => by
    constructor
    · intro h
      exact absurd h (by decide)
    · intro h
      nomatch h
  | [], b :: bs => iff_of_true rfl List.Lex.nil
  | a :: as, [] => by
    constructor
    · intro h
      nomatch h
    · intro h
      nomatch h
  | a :: as, b :: bs => by
    unfold charLT
    by_cases hab : a < b
    · simp only [if_pos hab]
      exact iff_of_true trivial (List.Lex.rel hab)
    · by_cases hba : b < a
      · simp only [if_neg hab, if_pos hba]
        refine iff_of_false (fun h => nomatch h) ?_
        intro h
        cases h with
        | cons h' => exact absurd hba (lt_irrefl a)
        | rel h' => exact absurd h' hab
      · simp only [if_neg hab, if_neg hba]
        rw [charLT_iff as bs]
        have heq : a = b := le_antisymm (not_lt.mp hba) (not_lt.mp hab)
        subst heq
        constructor
        · intro h
          exact List.Lex.cons h
        · intro h
          cases h with
          | cons h' => exact h'
          | rel h' => exact absurd h' hab

theorem strLE_iff (a b : String) : strLE a b = true ↔ a ≤ b := by
  rw [String.le_iff_toList_le, ← not_lt]
  constructor
  · intro h hlt
    have hc : charLT b.data a.data = true := (charLT_iff _ _).mpr hlt
    rw [show strLE a b = ! charLT b.data a.data from rfl, hc] at h
    exact absurd h (by decide)
  · intro h
    rw [show strLE a b = ! charLT b.data a.data from rfl]
    cases hcb : charLT b.data a.data
    · rfl
    · exact absurd ((charLT_iff _ _).mp hcb) h

instance : IsTrans Event eventLE :=
  ⟨fun _ _ _ hab hbc =>
    (strLE_iff _ _).mpr (le_trans ((strLE_iff _ _).mp hab) ((strLE_iff _ _).mp hbc))⟩

instance : IsTotal Event eventLE :=
  ⟨fun a b => (le_total a.createdAt b.createdAt).imp (strLE_iff _ _).mpr (strLE_iff _ _).mpr⟩

instance : IsTrans String stringLE :=
  ⟨fun _ _ _ hab hbc =>
    (strLE_iff _ _).mpr (le_trans ((strLE_iff _ _).mp hab) ((strLE_iff _ _).mp hbc))⟩

instance : IsTotal String stringLE :=
  ⟨fun a b => (le_total a b).imp (strLE_iff _ _).mpr (strLE_iff _ _).mpr⟩

/-! Basic lemmas about the building blocks. -/

theorem logOf_append (l₁ l₂ : List (String × Change)) (b : String) :
    logOf (l₁ ++ l₂) b = logOf l₁ b ++ logOf l₂ b := by
  simp [logOf, List.filter_append]

theorem applyOp_reposSeen (op : Op) (s : RunState) :
    (applyOp op s).reposSeen = s.reposSeen := by
  cases op <;> rfl

theorem applyOp_createdBranches (op : Op) (s : RunState) :
    (applyOp op s).createdBranches = s.createdBranches := by
  cases op <;> rfl

theorem applyOp_activeBranches (op : Op) (s : RunState) :
    (applyOp op s).activeBranches = s.activeBranches := by
  cases op <;> rfl

@[simp] theorem stateOf_ok (s : RunState) : stateOf (Except.ok s) = s := rfl

@[simp] theorem stateOf_error (s : RunState) : stateOf (Except.error s) = s := rfl

theorem runOp_ok {fails : Op → Bool} {op : Op} {s t : RunState}
    (h : runOp fails op s = Except.ok t) : t = applyOp op s := by
  unfold runOp at h
  split at h
  · exact absurd h (by simp)
  · exact (Except.ok.inj h).symm

theorem runOp_error {fails : Op → Bool} {op : Op} {s t : RunState}
    (h : runOp fails op s = Except.error t) : t = s := by
  unfold runOp at h
  split at h
  · exact (Except.error.inj h).symm
  · exact absurd h (by simp)

/-- Monotone evolution of a run state: the trace, the three sets and the
log only ever grow by appending at the end. -/
def Extends (s t : RunState) : Prop :=
  s.ops <+: t.ops ∧ s.reposSeen <+: t.reposSeen ∧ s.createdBranches <+: t.createdBranches
  ∧ s.activeBranches <+: t.activeBranches ∧ s.log <+: t.log

theorem extends_refl (s : RunState) : Extends s s :=
  ⟨List.prefix_rfl, List.prefix_rfl, List.prefix_rfl, List.prefix_rfl, List.prefix_rfl⟩

theorem extends_trans {s t u : RunState} (h₁ : Extends s t) (h₂ : Extends t u) :
    Extends s u :=
  ⟨h₁.1.trans h₂.1, h₁.2.1.trans h₂.2.1, h₁.2.2.1.trans h₂.2.2.1,
   h₁.2.2.2.1.trans h₂.2.2.2.1, h₁.2.2.2.2.trans h₂.2.2.2.2⟩

theorem extends_applyOp (op : Op) (s : RunState) : Extends s (applyOp op s) := by
  cases op <;>
    first
    | exact ⟨List.prefix_append _ _, List.prefix_rfl, List.prefix_rfl, List.prefix_rfl,
             List.prefix_rfl⟩
    | exact ⟨List.prefix_append _ _, List.prefix_rfl, List.prefix_rfl, List.prefix_rfl,
             List.prefix_append _ _⟩

theorem extends_runOp (fails : Op → Bool) (op : Op) (s : RunState) :
    Extends s (stateOf (runOp fails op s)) := by
  unfold runOp
  split
  · exact extends_refl s
  · exact extends_applyOp op s

theorem extends_replayCommits (fails : Op → Bool) (n d : String) (cs : List Commit) :
    ∀ s : RunState, Extends s (stateOf (replayCommits fails n d cs s)) := by
  induction cs with
  | nil => intro s; exact extends_refl s
  | cons c cs ih =>
    intro s
    unfold replayCommits
    split
    · next t heq =>
      rw [runOp_error heq]
      exact extends_refl s
    · next t heq =>
      rw [runOp_ok heq]
      exact extends_trans (extends_applyOp _ s) (ih _)

theorem extends_switchBranch (fails : Op → Bool) (n : String) (s : RunState) :
    Extends s (stateOf (switchBranch fails n s)) := by
  unfold switchBranch
  split
  · exact extends_runOp fails _ s
  · split
    · next t heq =>
      rw [runOp_error heq]
      exact extends_refl s
    · next t heq =>
      rw [runOp_ok heq]
      split
      · next u heq₂ =>
        rw [runOp_error heq₂]
        have h := extends_applyOp (Op.checkout "main") s
        exact h
      · next u heq₂ =>
        rw [runOp_ok heq₂]
        refine extends_trans (extends_trans (extends_applyOp (Op.checkout "main") s)
          (extends_applyOp (Op.createBranch n) _)) ?_
        exact ⟨List.prefix_rfl, List.prefix_rfl, List.prefix_append _ _,
               List.prefix_append _ _, List.prefix_rfl⟩

theorem extends_replayEvent (fails : Op → Bool) (n : String) (e : Event) (s : RunState) :
    Extends s (stateOf (replayEvent fails n e s)) := by
  unfold replayEvent
  split
  · next t hsb =>
    have h := extends_switchBranch fails n s
    rw [hsb] at h
    exact h
  · next t hsb =>
    have h := extends_switchBranch fails n s
    rw [hsb] at h
    exact extends_trans h (extends_replayCommits fails n e.createdAt (commitsOf e) t)

theorem extends_processEvent (fails : Op → Bool) (maxRepos : Nat) (s : RunState) (e : Event) :
    Extends s (stateOf (processEvent fails maxRepos s e)) := by
  unfold processEvent
  split
  · exact extends_replayEvent fails _ e s
  · split
    · exact extends_refl s
    · refine extends_trans ?_
        (extends_replayEvent fails (lastSegment e.repoName) e
          { s with reposSeen := s.reposSeen ++ [lastSegment e.repoName] })
      exact ⟨List.prefix_rfl, List.prefix_append _ _, List.prefix_rfl,
             List.prefix_rfl, List.prefix_rfl⟩

theorem extends_replayLoop (fails : Op → Bool) (maxRepos : Nat) :
    ∀ (es : List Event) (s : RunState), Extends s (stateOf (replayLoop fails maxRepos es s)) := by
  intro es
  induction es with
  | nil => intro s; exact extends_refl s
  | cons e es ih =>
    intro s
    unfold replayLoop
    split
    · next t hpe =>
      have h := extends_processEvent fails maxRepos s e
      rw [hpe] at h
      exact h
    · next t hpe =>
      have h := extends_processEvent fails maxRepos s e
      rw [hpe] at h
      exact extends_trans h (ih t)

theorem extends_runOps (fails : Op → Bool) :
    ∀ (ops : List Op) (s : RunState), Extends s (stateOf (runOps fails ops s)) := by
  intro ops
  induction ops with
  | nil => intro s; exact extends_refl s
  | cons op rest ih =>
    intro s
    unfold runOps
    split
    · next t heq =>
      rw [runOp_error heq]
      exact extends_refl s
    · next t heq =>
      rw [runOp_ok heq]
      exact extends_trans (extends_applyOp op s) (ih _)

theorem extends_reconcile (fails : Op → Bool) (s : RunState) :
    Extends s (reconcile fails s).finalState := by
  unfold reconcile
  split
  · next t heq =>
    rw [runOp_error heq]
    exact extends_refl s
  · next t heq =>
    rw [runOp_ok heq]
    split
    · have h := extends_applyOp (Op.checkout "main") s
      exact h
    · split
      · next u heq₂ =>
        rw [runOp_error heq₂]
        have h := extends_applyOp (Op.checkout "main") s
        exact h
      · next u heq₂ =>
        rw [runOp_ok heq₂]
        have h := extends_trans (extends_applyOp (Op.checkout "main") s)
          (extends_applyOp (Op.mergeBranches
            (List.insertionSort stringLE (applyOp (Op.checkout "main") s).activeBranches))
            (applyOp (Op.checkout "main") s))
        exact h

/-! Exact effect of the successful execution paths. -/

theorem replayCommits_ok_spec (fails : Op → Bool) (n d : String) :
    ∀ (cs : List Commit) (s t : RunState), replayCommits fails n d cs s = Except.ok t →
      s.current = n →
      t.log = s.log ++ eventChanges n d cs ∧ t.current = n
      ∧ t.reposSeen = s.reposSeen ∧ t.createdBranches = s.createdBranches
      ∧ t.activeBranches = s.activeBranches := by
  intro cs
  induction cs with
  | nil =>
    intro s t h hc
    rw [replayCommits] at h
    cases h
    exact ⟨by simp [eventChanges], hc, rfl, rfl, rfl⟩
  | cons c cs ih =>
    intro s t h hc
    rw [replayCommits] at h
    split at h
    · exact absurd h (by simp)
    · next u heq =>
      have hu := runOp_ok heq
      subst hu
      obtain ⟨h1, h2, h3, h4, h5⟩ := ih _ t h hc
      refine ⟨?_, h2, h3, h4, h5⟩
      rw [h1]
      simp [applyOp, eventChanges, hc]

theorem switchBranch_ok_spec {fails : Op → Bool} {n : String} {s t : RunState}
    (h : switchBranch fails n s = Except.ok t) :
    t.current = n ∧ t.log = s.log ∧ t.reposSeen = s.reposSeen
    ∧ t.createdBranches
        = (if n ∈ s.createdBranches then s.createdBranches else s.createdBranches ++ [n])
    ∧ t.activeBranches
        = (if n ∈ s.createdBranches then s.activeBranches else s.activeBranches ++ [n]) := by
  unfold switchBranch at h
  split at h
  · next hmem =>
    have ht := runOp_ok h
    subst ht
    simp [applyOp, hmem]
  · next hmem =>
    split at h
    · exact absurd h (by simp)
    · next u heq =>
      have hu := runOp_ok heq
      subst hu
      split at h
      · exact absurd h (by simp)
      · next v heq₂ =>
        have hv := runOp_ok heq₂
        subst hv
        cases h
        simp [applyOp, hmem]

theorem replayEvent_ok_spec {fails : Op → Bool} {n : String} {e : Event} {s t : RunState}
    (h : replayEvent fails n e s = Except.ok t) :
    t.current = n
    ∧ t.log = s.log ++ eventChanges n e.createdAt (commitsOf e)
    ∧ t.reposSeen = s.reposSeen
    ∧ t.createdBranches
        = (if n ∈ s.createdBranches then s.createdBranches else s.createdBranches ++ [n])
    ∧ t.activeBranches
        = (if n ∈ s.createdBranches then s.activeBranches else s.activeBranches ++ [n]) := by
  unfold replayEvent at h
  split at h
  · exact absurd h (by simp)
  · next u heq =>
    obtain ⟨hc, hl, hr, hcb, hab⟩ := switchBranch_ok_spec heq
    obtain ⟨hl₂, hc₂, hr₂, hcb₂, hab₂⟩ := replayCommits_ok_spec fails n e.createdAt _ _ _ h hc
    exact ⟨hc₂, by rw [hl₂, hl], by rw [hr₂, hr], by rw [hcb₂, hcb], by rw [hab₂, hab]⟩

theorem processEvent_ok_spec {fails : Op → Bool} {maxRepos : Nat} {s t : RunState} {e : Event}
    (h : processEvent fails maxRepos s e = Except.ok t)
    (hnd : lastSegment e.repoName ∈ s.reposSeen ∨ s.reposSeen.length < maxRepos) :
    t.current = lastSegment e.repoName
    ∧ t.log = s.log ++ eventChanges (lastSegment e.repoName) e.createdAt (commitsOf e)
    ∧ t.reposSeen = (if lastSegment e.repoName ∈ s.reposSeen then s.reposSeen
        else s.reposSeen ++ [lastSegment e.repoName])
    ∧ t.createdBranches = (if lastSegment e.repoName ∈ s.createdBranches then s.createdBranches
        else s.createdBranches ++ [lastSegment e.repoName])
    ∧ t.activeBranches = (if lastSegment e.repoName ∈ s.createdBranches then s.activeBranches
        else s.activeBranches ++ [lastSegment e.repoName]) := by
  unfold processEvent at h
  split at h
  · next hmem =>
    obtain ⟨h1, h2, h3, h4, h5⟩ := replayEvent_ok_spec h
    exact ⟨h1, h2, by rw [h3, if_pos hmem], h4, h5⟩
  · next hmem =>
    split at h
    · next hcap =>
      rcases hnd with hn | hn
      · exact absurd hn hmem
      · omega
    · next hcap =>
      obtain ⟨h1, h2, h3, h4, h5⟩ := replayEvent_ok_spec h
      refine ⟨h1, h2, ?_, ?_, ?_⟩
      · rw [h3, if_neg hmem]
      · rw [h4]
      · rw [h5]

theorem processEvent_dropped {fails : Op → Bool} {maxRepos : Nat} {s : RunState} {e : Event}
    (h₁ : lastSegment e.repoName ∉ s.reposSeen) (h₂ : maxRepos ≤ s.reposSeen.length) :
    processEvent fails maxRepos s e = Except.ok s := by
  unfold processEvent
  rw [if_neg h₁, if_pos h₂]

/-! Field transport through the setup commands and the final merge. -/

theorem runOps_sets (fails : Op → Bool) :
    ∀ (ops : List Op) (s : RunState),
      (stateOf (runOps fails ops s)).reposSeen = s.reposSeen
      ∧ (stateOf (runOps fails ops s)).createdBranches = s.createdBranches
      ∧ (stateOf (runOps fails ops s)).activeBranches = s.activeBranches := by
  intro ops
  induction ops with
  | nil => intro s; exact ⟨rfl, rfl, rfl⟩
  | cons op rest ih =>
    intro s
    unfold runOps
    split
    · next t heq =>
      rw [runOp_error heq]
      exact ⟨rfl, rfl, rfl⟩
    · next t heq =>
      rw [runOp_ok heq]
      obtain ⟨a, b, c⟩ := ih (applyOp op s)
      exact ⟨by rw [a, applyOp_reposSeen], by rw [b, applyOp_createdBranches],
             by rw [c, applyOp_activeBranches]⟩

theorem reconcile_fields (fails : Op → Bool) (s : RunState) :
    (reconcile fails s).finalState.reposSeen = s.reposSeen
    ∧ (reconcile fails s).finalState.createdBranches = s.createdBranches
    ∧ (reconcile fails s).finalState.activeBranches = s.activeBranches
    ∧ (reconcile fails s).finalState.log = s.log := by
  unfold reconcile
  split
  · next t heq =>
    rw [runOp_error heq]
    exact ⟨rfl, rfl, rfl, rfl⟩
  · next t heq =>
    rw [runOp_ok heq]
    split
    · exact ⟨rfl, rfl, rfl, rfl⟩
    · split
      · next u heq₂ =>
        rw [runOp_error heq₂]
        exact ⟨rfl, rfl, rfl, rfl⟩
      · next u heq₂ =>
        rw [runOp_ok heq₂]
        exact ⟨rfl, rfl, rfl, rfl⟩

/-! Invariant behind the timeline cap. -/

/-- Invariant maintained at every command boundary of a run: the seen
set is duplicate-free and within the cap, and every created branch was
seen first. -/
def CapInv (maxRepos : Nat) (s : RunState) : Prop :=
  s.reposSeen.Nodup ∧ s.reposSeen.length ≤ maxRepos
  ∧ s.createdBranches.Nodup ∧ s.createdBranches ⊆ s.reposSeen

theorem capInv_congr {m : Nat} {s t : RunState} (hr : t.reposSeen = s.reposSeen)
    (hc : t.createdBranches = s.createdBranches) (h : CapInv m s) : CapInv m t := by
  unfold CapInv at *
  rw [hr, hc]
  exact h

theorem replayCommits_sets (fails : Op → Bool) (n d : String) :
    ∀ (cs : List Commit) (s : RunState),
      (stateOf (replayCommits fails n d cs s)).reposSeen = s.reposSeen
      ∧ (stateOf (replayCommits fails n d cs s)).createdBranches = s.createdBranches
      ∧ (stateOf (replayCommits fails n d cs s)).activeBranches = s.activeBranches := by
  intro cs
  induction cs with
  | nil => intro s; exact ⟨rfl, rfl, rfl⟩
  | cons c cs ih =>
    intro s
    unfold replayCommits
    split
    · next t heq =>
      rw [runOp_error heq]
      exact ⟨rfl, rfl, rfl⟩
    · next t heq =>
      rw [runOp_ok heq]
      obtain ⟨a, b, c'⟩ := ih (applyOp _ s)
      exact ⟨by rw [a, applyOp_reposSeen], by rw [b, applyOp_createdBranches],
             by rw [c', applyOp_activeBranches]⟩

theorem capInv_runOp {fails : Op → Bool} {op : Op} {s : RunState} {m : Nat}
    (h : CapInv m s) : CapInv m (stateOf (runOp fails op s)) := by
  unfold runOp
  split
  · exact h
  · rw [stateOf_ok]
    exact capInv_congr (applyOp_reposSeen _ _) (applyOp_createdBranches _ _) h

theorem capInv_switchBranch {fails : Op → Bool} {n : String} {s : RunState} {m : Nat}
    (hn : n ∈ s.reposSeen) (h : CapInv m s) :
    CapInv m (stateOf (switchBranch fails n s)) := by
  unfold switchBranch
  split
  · exact capInv_runOp h
  · next hmem =>
    split
    · next t heq =>
      rw [runOp_error heq]
      exact h
    · next t heq =>
      rw [runOp_ok heq]
      split
      · next u heq₂ =>
        rw [runOp_error heq₂, stateOf_error]
        exact capInv_congr (applyOp_reposSeen _ _) (applyOp_createdBranches _ _) h
      · next u heq₂ =>
        rw [runOp_ok heq₂, stateOf_ok]
        obtain ⟨h1, h2, h3, h4⟩ := h
        refine ⟨?_, ?_, ?_, ?_⟩
        · exact show s.reposSeen.Nodup from h1
        · exact show s.reposSeen.length ≤ m from h2
        · show (s.createdBranches ++ [n]).Nodup
          simp [List.nodup_append, h3, hmem]
        · show s.createdBranches ++ [n] ⊆ s.reposSeen
          intro x hx
          rcases List.mem_append.mp hx with hx | hx
          · exact h4 hx
          · rw [List.mem_singleton.mp hx]
            exact hn

theorem capInv_replayEvent {fails : Op → Bool} {n : String} {e : Event} {s : RunState} {m : Nat}
    (hn : n ∈ s.reposSeen) (h : CapInv m s) :
    CapInv m (stateOf (replayEvent fails n e s)) := by
  unfold replayEvent
  split
  · next t heq =>
    have hsb := @capInv_switchBranch fails _ _ _ hn h
    rw [heq] at hsb
    exact hsb
  · next t heq =>
    have hsb := @capInv_switchBranch fails _ _ _ hn h
    rw [heq] at hsb
    obtain ⟨a, b, c⟩ := replayCommits_sets fails n e.createdAt (commitsOf e) t
    exact capInv_congr a b hsb

theorem capInv_processEvent {fails : Op → Bool} {maxRepos : Nat} {s : RunState} {e : Event}
    (h : CapInv maxRepos s) :
    CapInv maxRepos (stateOf (processEvent fails maxRepos s e)) := by
  unfold processEvent
  split
  · next hmem => exact capInv_replayEvent hmem h
  · next hmem =>
    split
    · exact h
    · next hcap =>
      have hs' : CapInv maxRepos
          { s with reposSeen := s.reposSeen ++ [lastSegment e.repoName] } := by
        obtain ⟨h1, h2, h3, h4⟩ := h
        refine ⟨?_, ?_, h3, ?_⟩
        · simp [List.nodup_append, h1, hmem]
        · simp only [List.length_append, List.length_singleton]
          omega
        · intro x hx
          simp only [List.mem_append]
          exact Or.inl (h4 hx)
      exact capInv_replayEvent (by simp) hs'

theorem capInv_replayLoop {fails : Op → Bool} {maxRepos : Nat} :
    ∀ (es : List Event) (s : RunState), CapInv maxRepos s →
      CapInv maxRepos (stateOf (replayLoop fails maxRepos es s)) := by
  intro es
  induction es with
  | nil => intro s h; exact h
  | cons e es ih =>
    intro s h
    unfold replayLoop
    split
    · next t heq =>
      have hp := @capInv_processEvent fails _ _ e h
      rw [heq] at hp
      exact hp
    · next t heq =>
      have hp := @capInv_processEvent fails _ _ e h
      rw [heq] at hp
      exact ih t hp

theorem capInv_initState (m : Nat) : CapInv m initState :=
  ⟨List.nodup_nil, by simp [initState], List.nodup_nil, by simp [initState]⟩

theorem capInv_generate (fails : Op → Bool) (maxRepos : Nat) (events : List Event) :
    CapInv maxRepos (generate fails maxRepos events).finalState := by
  unfold generate
  split
  · exact capInv_initState maxRepos
  · next first rest hpe =>
    split
    · next t heq =>
      have hs := runOps_sets fails (setupOps first.createdAt) initState
      rw [heq] at hs
      exact capInv_congr hs.1 hs.2.1 (capInv_initState maxRepos)
    · next t heq =>
      have hs := runOps_sets fails (setupOps first.createdAt) initState
      rw [heq] at hs
      have ht : CapInv maxRepos t := capInv_congr hs.1 hs.2.1 (capInv_initState maxRepos)
      split
      · next u heq₂ =>
        have hl := @capInv_replayLoop fails maxRepos (first :: rest) t ht
        rw [heq₂] at hl
        exact hl
      · next u heq₂ =>
        have hl := @capInv_replayLoop fails maxRepos (first :: rest) t ht
        rw [heq₂] at hl
        obtain ⟨a, b, _, _⟩ := reconcile_fields fails u
        exact capInv_congr a b hl

/-! Monotonicity of the authored dates. -/

/-- Authored dates of a commit log, in authoring order. -/
def logDates (log : List (String × Change)) : List String :=
  log.map (fun p => p.2.authoredAt)

/-- Every commit in the log so far is dated no later than `d`. -/
def DatesLE (s : RunState) (d : String) : Prop :=
  ∀ p ∈ s.log, p.2.authoredAt ≤ d

/-- The global commit log is non-decreasing in its authored dates. -/
def DatesSorted (s : RunState) : Prop :=
  (logDates s.log).Pairwise (· ≤ ·)

theorem datesLE_congr {s t : RunState} (h : t.log = s.log) {d : String}
    (hle : DatesLE s d) : DatesLE t d := by
  unfold DatesLE at *
  rw [h]
  exact hle

theorem datesSorted_congr {s t : RunState} (h : t.log = s.log)
    (hs : DatesSorted s) : DatesSorted t := by
  unfold DatesSorted at *
  rw [h]
  exact hs

theorem pairwise_dates_append {log : List (String × Change)} {entry : String × Change}
    (hs : (logDates log).Pairwise (· ≤ ·))
    (hle : ∀ p ∈ log, p.2.authoredAt ≤ entry.2.authoredAt) :
    (logDates (log ++ [entry])).Pairwise (· ≤ ·) := by
  unfold logDates
  rw [List.map_append, List.pairwise_append]
  refine ⟨hs, List.pairwise_singleton _ _, ?_⟩
  intro x hx y hy
  simp only [List.map_cons, List.map_nil, List.mem_singleton] at hy
  subst hy
  simp only [List.mem_map] at hx
  obtain ⟨p, hp, rfl⟩ := hx
  exact hle p hp

theorem applyOp_commit_log (m d : String) (s : RunState) :
    (applyOp (Op.commitChange m d) s).log = s.log ++ [(s.current, ⟨m, d⟩)] := rfl

theorem switchBranch_log (fails : Op → Bool) (n : String) (s : RunState) :
    (stateOf (switchBranch fails n s)).log = s.log := by
  unfold switchBranch
  split
  · unfold runOp
    split
    · rfl
    · rfl
  · split
    · next t heq =>
      rw [runOp_error heq]
      rfl
    · next t heq =>
      rw [runOp_ok heq]
      split
      · next u heq₂ =>
        rw [runOp_error heq₂]
        rfl
      · next u heq₂ =>
        rw [runOp_ok heq₂]
        rfl

theorem dates_replayCommits (fails : Op → Bool) (n d : String) :
    ∀ (cs : List Commit) (s : RunState), DatesLE s d → DatesSorted s →
      DatesLE (stateOf (replayCommits fails n d cs s)) d
      ∧ DatesSorted (stateOf (replayCommits fails n d cs s)) := by
  intro cs
  induction cs with
  | nil =>
    intro s hle hs
    exact ⟨hle, hs⟩
  | cons c cs ih =>
    intro s hle hs
    unfold replayCommits
    split
    · next t heq =>
      rw [runOp_error heq]
      exact ⟨hle, hs⟩
    · next t heq =>
      rw [runOp_ok heq]
      refine ih (applyOp (Op.commitChange (n ++ ": " ++ firstLine c.message) d) s) ?_ ?_
      · intro p hp
        rw [applyOp_commit_log] at hp
        rcases List.mem_append.mp hp with hp | hp
        · exact hle p hp
        · rw [List.mem_singleton.mp hp]
      · unfold DatesSorted
        rw [applyOp_commit_log]
        exact pairwise_dates_append hs hle

theorem dates_replayEvent (fails : Op → Bool) (n : String) (e : Event) (s : RunState)
    (hle : DatesLE s e.createdAt) (hs : DatesSorted s) :
    DatesLE (stateOf (replayEvent fails n e s)) e.createdAt
    ∧ DatesSorted (stateOf (replayEvent fails n e s)) := by
  unfold replayEvent
  split
  · next t heq =>
    have hl := switchBranch_log fails n s
    rw [heq] at hl
    exact ⟨datesLE_congr hl hle, datesSorted_congr hl hs⟩
  · next t heq =>
    have hl := switchBranch_log fails n s
    rw [heq] at hl
    exact dates_replayCommits fails n e.createdAt (commitsOf e) t
      (datesLE_congr hl hle) (datesSorted_congr hl hs)

theorem dates_processEvent (fails : Op → Bool) (maxRepos : Nat) (s : RunState) (e : Event)
    (hle : DatesLE s e.createdAt) (hs : DatesSorted s) :
    DatesLE (stateOf (processEvent fails maxRepos s e)) e.createdAt
    ∧ DatesSorted (stateOf (processEvent fails maxRepos s e)) := by
  unfold processEvent
  split
  · exact dates_replayEvent fails _ e s hle hs
  · split
    · exact ⟨hle, hs⟩
    · exact dates_replayEvent fails _ e _ (datesLE_congr rfl hle) (datesSorted_congr rfl hs)

theorem dates_replayLoop (fails : Op → Bool) (maxRepos : Nat) :
    ∀ (es : List Event) (s : RunState), es.Pairwise eventLE →
      (∀ e ∈ es, DatesLE s e.createdAt) → DatesSorted s →
      DatesSorted (stateOf (replayLoop fails maxRepos es s)) := by
  intro es
  induction es with
  | nil =>
    intro s _ _ hs
    exact hs
  | cons e es ih =>
    intro s hp hle hs
    unfold replayLoop
    obtain ⟨hd, hp'⟩ := List.pairwise_cons.mp hp
    have hpe := dates_processEvent fails maxRepos s e (hle e (List.mem_cons_self e es)) hs
    split
    · next t heq =>
      rw [heq] at hpe
      exact hpe.2
    · next t heq =>
      rw [heq] at hpe
      refine ih t hp' ?_ hpe.2
      intro e' he' p hp''
      exact le_trans (hpe.1 p hp'') ((strLE_iff _ _).mp (hd e' he'))

theorem setup_log (fails : Op → Bool) (d : String) :
    (stateOf (runOps fails (setupOps d) initState)).log = []
    ∨ (stateOf (runOps fails (setupOps d) initState)).log
        = [("main", Change.mk "Init History" d)] := by
  unfold setupOps runOps
  split
  · next t heq =>
    rw [runOp_error heq]
    left
    rfl
  · next t heq =>
    rw [runOp_ok heq]
    unfold runOps
    split
    · next t heq₂ =>
      rw [runOp_error heq₂]
      left
      rfl
    · next t heq₂ =>
      rw [runOp_ok heq₂]
      unfold runOps
      split
      · next t heq₃ =>
        rw [runOp_error heq₃]
        left
        rfl
      · next t heq₃ =>
        rw [runOp_ok heq₃]
        unfold runOps
        split
        · next t heq₄ =>
          rw [runOp_error heq₄]
          left
          rfl
        · next t heq₄ =>
          rw [runOp_ok heq₄]
          unfold runOps
          split
          · next t heq₅ =>
            rw [runOp_error heq₅]
            right
            rfl
          · next t heq₅ =>
            rw [runOp_ok heq₅]
            right
            rfl

theorem sorted_pushEventsOf (events : List Event) :
    (pushEventsOf events).Pairwise eventLE :=
  List.sorted_insertionSort eventLE (events.filter (fun e => e.type == "PushEvent"))

theorem dates_generate (fails : Op → Bool) (maxRepos : Nat) (events : List Event) :
    DatesSorted (generate fails maxRepos events).finalState := by
  unfold generate
  split
  · unfold DatesSorted logDates initState
    simp
  · next first rest hpe =>
    have hsorted : (first :: rest).Pairwise eventLE := by
      rw [← hpe]
      exact sorted_pushEventsOf events
    have hfirst : ∀ e ∈ first :: rest, first.createdAt ≤ e.createdAt := by
      intro e he
      rcases List.mem_cons.mp he with rfl | he
      · exact le_refl _
      · exact (strLE_iff _ _).mp ((List.pairwise_cons.mp hsorted).1 e he)
    have hsetup := setup_log fails first.createdAt
    have hsetupLE : DatesLE (stateOf (runOps fails (setupOps first.createdAt) initState))
        first.createdAt := by
      intro p hp
      rcases hsetup with hlog | hlog
      · rw [hlog] at hp
        exact absurd hp (List.not_mem_nil p)
      · rw [hlog] at hp
        rw [List.mem_singleton.mp hp]
    have hsetupSorted : DatesSorted (stateOf (runOps fails (setupOps first.createdAt) initState)) := by
      unfold DatesSorted logDates
      rcases hsetup with hlog | hlog
      · rw [hlog]
        simp
      · rw [hlog]
        simp
    split
    · next t heq =>
      rw [heq] at hsetupLE hsetupSorted
      exact hsetupSorted
    · next t heq =>
      rw [heq] at hsetupLE hsetupSorted
      have hloop := dates_replayLoop fails maxRepos (first :: rest) t hsorted
        (fun e he p hp => le_trans (hsetupLE p hp) (hfirst e he)) hsetupSorted
      split
      · next u heq₂ =>
        rw [heq₂] at hloop
        exact hloop
      · next u heq₂ =>
        rw [heq₂] at hloop
        exact datesSorted_congr (reconcile_fields fails u).2.2.2 hloop

theorem timelineLog_dates_pairwise {s : RunState} (hs : DatesSorted s) (b : String) :
    ((timelineLog s b).map Change.authoredAt).Pairwise (· ≤ ·) := by
  unfold timelineLog logOf
  rw [List.map_map]
  refine List.Pairwise.sublist ?_ hs
  exact (List.filter_sublist s.log).map (fun p => p.2.authoredAt)

/-! Exit codes and the special role of the final merge. -/

/-- The final merge is the only command whose failure is caught. -/
def isMergeOp : Op → Bool
  | Op.mergeBranches _ => true
  | _ => false

theorem reconcile_code_iff (fails : Op → Bool) (s : RunState) :
    (reconcile fails s).exitCode = 0 ↔ (reconcile fails s).reason = Reason.success := by
  unfold reconcile
  split
  · simp
  · split
    · simp
    · split
      · simp
      · simp

theorem generate_code_iff (fails : Op → Bool) (maxRepos : Nat) (events : List Event) :
    (generate fails maxRepos events).exitCode = 0
    ↔ (generate fails maxRepos events).reason = Reason.success := by
  unfold generate
  split
  · simp
  · split
    · simp
    · split
      · simp
      · exact reconcile_code_iff fails _

theorem runOp_nonMerge_err {fails : Op → Bool} {op : Op} {s t : RunState}
    (hf : ∀ o, isMergeOp o = false → fails o = false)
    (h : runOp fails op s = Except.error t) (hop : isMergeOp op = false) : False := by
  unfold runOp at h
  rw [hf op hop] at h
  simp at h

theorem replayCommits_nonMerge {fails : Op → Bool}
    (hf : ∀ o, isMergeOp o = false → fails o = false) (n d : String) :
    ∀ (cs : List Commit) (s : RunState), ∃ t, replayCommits fails n d cs s = Except.ok t := by
  intro cs
  induction cs with
  | nil =>
    intro s
    exact ⟨s, rfl⟩
  | cons c cs ih =>
    intro s
    unfold replayCommits
    cases hro : runOp fails (Op.commitChange (n ++ ": " ++ firstLine c.message) d) s with
    | error t => exact (runOp_nonMerge_err hf hro rfl).elim
    | ok t =>
      simp only [hro]
      exact ih t

theorem switchBranch_nonMerge {fails : Op → Bool}
    (hf : ∀ o, isMergeOp o = false → fails o = false) (n : String) (s : RunState) :
    ∃ t, switchBranch fails n s = Except.ok t := by
  unfold switchBranch
  split
  · cases hro : runOp fails (Op.checkout n) s with
    | error t => exact (runOp_nonMerge_err hf hro rfl).elim
    | ok t => exact ⟨t, rfl⟩
  · cases hro : runOp fails (Op.checkout "main") s with
    | error t => exact (runOp_nonMerge_err hf hro rfl).elim
    | ok t =>
      show ∃ u, (match runOp fails (Op.createBranch n) t with
        | Except.error u => Except.error u
        | Except.ok u =>
          Except.ok { u with createdBranches := u.createdBranches ++ [n],
                             activeBranches := u.activeBranches ++ [n] }) = Except.ok u
      cases hro₂ : runOp fails (Op.createBranch n) t with
      | error u => exact (runOp_nonMerge_err hf hro₂ rfl).elim
      | ok u => exact ⟨_, rfl⟩

theorem replayEvent_nonMerge {fails : Op → Bool}
    (hf : ∀ o, isMergeOp o = false → fails o = false) (n : String) (e : Event) (s : RunState) :
    ∃ t, replayEvent fails n e s = Except.ok t := by
  unfold replayEvent
  obtain ⟨t, ht⟩ := switchBranch_nonMerge hf n s
  simp only [ht]
  exact replayCommits_nonMerge hf n e.createdAt (commitsOf e) t

theorem processEvent_nonMerge {fails : Op → Bool}
    (hf : ∀ o, isMergeOp o = false → fails o = false) (maxRepos : Nat) (s : RunState)
    (e : Event) : ∃ t, processEvent fails maxRepos s e = Except.ok t := by
  unfold processEvent
  split
  · exact replayEvent_nonMerge hf _ e s
  · split
    · exact ⟨s, rfl⟩
    · exact replayEvent_nonMerge hf _ e _

theorem replayLoop_nonMerge {fails : Op → Bool}
    (hf : ∀ o, isMergeOp o = false → fails o = false) (maxRepos : Nat) :
    ∀ (es : List Event) (s : RunState), ∃ t, replayLoop fails maxRepos es s = Except.ok t := by
  intro es
  induction es with
  | nil =>
    intro s
    exact ⟨s, rfl⟩
  | cons e es ih =>
    intro s
    unfold replayLoop
    obtain ⟨t, ht⟩ := processEvent_nonMerge hf maxRepos s e
    simp only [ht]
    exact ih t

theorem runOps_nonMerge {fails : Op → Bool}
    (hf : ∀ o, isMergeOp o = false → fails o = false) :
    ∀ (ops : List Op), (∀ op ∈ ops, isMergeOp op = false) →
      ∀ s : RunState, ∃ t, runOps fails ops s = Except.ok t := by
  intro ops
  induction ops with
  | nil =>
    intro _ s
    exact ⟨s, rfl⟩
  | cons op rest ih =>
    intro hops s
    unfold runOps
    cases hro : runOp fails op s with
    | error t => exact (runOp_nonMerge_err hf hro (hops op (List.mem_cons_self op rest))).elim
    | ok t =>
      simp only [hro]
      exact ih (fun o ho => hops o (List.mem_cons_of_mem op ho)) t

theorem setupOps_nonMerge (d : String) : ∀ op ∈ setupOps d, isMergeOp op = false := by
  intro op hop
  simp only [setupOps, List.mem_cons, List.mem_singleton] at hop
  rcases hop with rfl | rfl | rfl | rfl | rfl | h
  · rfl
  · rfl
  · rfl
  · rfl
  · rfl
  · exact absurd h (List.not_mem_nil op)

theorem generate_nonMerge {fails : Op → Bool} (maxRepos : Nat) (events : List Event)
    (hf : ∀ o, isMergeOp o = false → fails o = false)
    (hne : pushEventsOf events ≠ []) :
    (generate fails maxRepos events).exitCode = 0 := by
  unfold generate
  split
  · next heq => exact absurd heq hne
  · next first rest hpe =>
    obtain ⟨t, hst⟩ := runOps_nonMerge hf (setupOps first.createdAt)
      (setupOps_nonMerge first.createdAt) initState
    obtain ⟨u, hlp⟩ := replayLoop_nonMerge hf maxRepos (first :: rest) t
    simp only [hst, hlp]
    unfold reconcile
    cases hco : runOp fails (Op.checkout "main") u with
    | error v => exact (runOp_nonMerge_err hf hco rfl).elim
    | ok v =>
      simp only [hco]
      split
      · rfl
      · cases hm : runOp fails (Op.mergeBranches (List.insertionSort stringLE v.activeBranches)) v with
        | error w => simp only [hm]
        | ok w => simp only [hm]

/-! Decomposition of the replay loop and the per-timeline view. -/

theorem replayLoop_append (fails : Op → Bool) (maxRepos : Nat) :
    ∀ (l₁ l₂ : List Event) (s : RunState),
      replayLoop fails maxRepos (l₁ ++ l₂) s
        = (match replayLoop fails maxRepos l₁ s with
           | Except.error t => Except.error t
           | Except.ok t => replayLoop fails maxRepos l₂ t) := by
  intro l₁
  induction l₁ with
  | nil =>
    intro l₂ s
    rfl
  | cons e es ih =>
    intro l₂ s
    simp only [List.cons_append, replayLoop]
    cases hpe : processEvent fails maxRepos s e with
    | error t => rfl
    | ok t => exact ih l₂ t

theorem logOf_eventChanges_self (n d : String) (cs : List Commit) :
    logOf (eventChanges n d cs) n
      = cs.map (fun c => ⟨n ++ ": " ++ firstLine c.message, d⟩) := by
  induction cs with
  | nil => rfl
  | cons c cs ih =>
    simp only [eventChanges, List.map_cons, logOf, List.filter_cons, beq_self_eq_true, if_true]
    simp only [eventChanges, logOf] at ih
    rw [ih]

theorem logOf_eventChanges_other {n b : String} (hne : b ≠ n) (d : String)
    (cs : List Commit) : logOf (eventChanges n d cs) b = [] := by
  induction cs with
  | nil => rfl
  | cons c cs ih =>
    simp only [eventChanges, logOf, List.map_cons, List.filter_cons] at *
    rw [if_neg]
    · exact ih
    · simp only [beq_iff_eq]
      exact fun hq => hne hq.symm

theorem commitsOf_length (e : Event) : (commitsOf e).length = max 1 e.commits.length := by
  unfold commitsOf
  cases hc : e.commits with
  | nil => simp
  | cons c cs =>
    simp only [List.isEmpty_cons, Bool.false_eq_true, if_false, List.length_cons]
    omega

theorem commitsOf_ne_nil (e : Event) : commitsOf e ≠ [] := by
  unfold commitsOf
  cases e.commits with
  | nil => simp
  | cons c cs => simp

/-! The allocator invariant behind C10. -/

/-- After every completed loop iteration the three allocator sets agree,
and every branch that was ever created carries at least one authored
commit. -/
def AllocInv (s : RunState) : Prop :=
  s.reposSeen = s.createdBranches ∧ s.createdBranches = s.activeBranches
  ∧ ∀ b ∈ s.createdBranches, timelineLog s b ≠ []

theorem allocInv_processEvent {fails : Op → Bool} {maxRepos : Nat} {s t : RunState} {e : Event}
    (h : processEvent fails maxRepos s e = Except.ok t) (hinv : AllocInv s) : AllocInv t := by
  obtain ⟨h1, h2, h3⟩ := hinv
  by_cases hmem : lastSegment e.repoName ∈ s.reposSeen
  · obtain ⟨hc, hl, hr, hcb, hab⟩ := processEvent_ok_spec h (Or.inl hmem)
    rw [if_pos hmem] at hr
    have hmemc : lastSegment e.repoName ∈ s.createdBranches := h1 ▸ hmem
    rw [if_pos hmemc] at hcb
    rw [if_pos hmemc] at hab
    refine ⟨by rw [hr, hcb]; exact h1, by rw [hcb, hab]; exact h2, ?_⟩
    intro b hb
    rw [hcb] at hb
    unfold timelineLog
    rw [hl, logOf_append]
    exact fun hq => (h3 b hb) (List.append_eq_nil.mp hq).1
  · by_cases hcap : maxRepos ≤ s.reposSeen.length
    · rw [processEvent_dropped hmem hcap] at h
      cases h
      exact ⟨h1, h2, h3⟩
    · obtain ⟨hc, hl, hr, hcb, hab⟩ := processEvent_ok_spec h (Or.inr (by omega))
      rw [if_neg hmem] at hr
      have hmemc : lastSegment e.repoName ∉ s.createdBranches := fun hq => hmem (h1 ▸ hq)
      rw [if_neg hmemc] at hcb
      rw [if_neg hmemc] at hab
      refine ⟨by rw [hr, hcb, h1], by rw [hcb, hab, h2], ?_⟩
      intro b hb
      unfold timelineLog
      rw [hl, logOf_append]
      rw [hcb] at hb
      rcases List.mem_append.mp hb with hb | hb
      · exact fun hq => (h3 b hb) (List.append_eq_nil.mp hq).1
      · rw [List.mem_singleton.mp hb]
        intro hq
        have hemp := (List.append_eq_nil.mp hq).2
        rw [logOf_eventChanges_self] at hemp
        exact commitsOf_ne_nil e (List.map_eq_nil_iff.mp hemp)

theorem reconcile_noFail (s : RunState) :
    reconcile noFail s
      = if s.activeBranches.isEmpty
        then ⟨0, Reason.success, false, applyOp (Op.checkout "main") s⟩
        else ⟨0, Reason.success, false,
          applyOp (Op.mergeBranches (List.insertionSort stringLE s.activeBranches))
            (applyOp (Op.checkout "main") s)⟩ := rfl

/-! The claims. -/

/-- C1: for every input feed (and any command failures), the number of
branches ever created never exceeds the timeline cap; and an event whose
derived timeline name is unseen while the seen set has already reached
the cap is dropped: the loop iteration returns the state unchanged,
runs no command and raises no error. -/
theorem C1_timeline_cap (fails : Op → Bool) (maxRepos : Nat) (events : List Event) :
    (generate fails maxRepos events).finalState.createdBranches.length ≤ maxRepos
    ∧ ∀ (s : RunState) (e : Event), lastSegment e.repoName ∉ s.reposSeen →
        maxRepos ≤ s.reposSeen.length → processEvent fails maxRepos s e = Except.ok s := by
  constructor
  · obtain ⟨h1, h2, h3, h4⟩ := capInv_generate fails maxRepos events
    exact le_trans (h3.subperm h4).length_le h2
  · intro s e h₁ h₂
    exact processEvent_dropped h₁ h₂

/-- C2: an event that is assigned to a timeline (not dropped) increases
that timeline's recorded-change count by exactly `max 1 |subChanges|`;
an event with no payload commits records exactly one placeholder change
dated at the event's creation date. -/
theorem C2_change_count (fails : Op → Bool) (maxRepos : Nat) (s t : RunState) (e : Event)
    (h : processEvent fails maxRepos s e = Except.ok t)
    (hnd : lastSegment e.repoName ∈ s.reposSeen ∨ s.reposSeen.length < maxRepos) :
    (timelineLog t (lastSegment e.repoName)).length
      = (timelineLog s (lastSegment e.repoName)).length + max 1 e.commits.length
    ∧ (e.commits = [] →
        timelineLog t (lastSegment e.repoName)
          = timelineLog s (lastSegment e.repoName)
            ++ [⟨lastSegment e.repoName ++ ": Update", e.createdAt⟩]) := by
  obtain ⟨hc, hl, _, _, _⟩ := processEvent_ok_spec h hnd
  have hts : timelineLog t (lastSegment e.repoName)
      = timelineLog s (lastSegment e.repoName)
        ++ (commitsOf e).map
            (fun c => ⟨lastSegment e.repoName ++ ": " ++ firstLine c.message, e.createdAt⟩) := by
    unfold timelineLog
    rw [hl, logOf_append, logOf_eventChanges_self]
  constructor
  · rw [hts, List.length_append, List.length_map, commitsOf_length]
  · intro hce
    rw [hts]
    unfold commitsOf
    rw [hce]
    simp only [List.isEmpty_nil, if_true, List.map_cons, List.map_nil]
    rw [String.append_assoc]
    rfl

/-- C3: on any single timeline, the authored dates of the recorded
changes are non-decreasing in recording order, for every feed and every
failure pattern. -/
theorem C3_timeline_dates_sorted (fails : Op → Bool) (maxRepos : Nat) (events : List Event)
    (b : String) :
    ((timelineLog (generate fails maxRepos events).finalState b).map Change.authoredAt).Pairwise
      (· ≤ ·) :=
  timelineLog_dates_pairwise (dates_generate fails maxRepos events) b

/-- C5: a retrievable feed with zero push events makes the run exit with
code 1 before any history-store command is executed, so no output store
is created. -/
theorem C5_empty_history (fails : Op → Bool) (maxRepos : Nat) (events : List Event)
    (h : events.filter (fun e => e.type == "PushEvent") = []) :
    (generate fails maxRepos events).exitCode = 1
    ∧ (generate fails maxRepos events).reason = Reason.emptyHistory
    ∧ (generate fails maxRepos events).finalState.ops = [] := by
  have hpe : pushEventsOf events = [] := by
    unfold pushEventsOf
    rw [h]
    rfl
  unfold generate
  simp only [hpe]
  refine ⟨?_, ?_, ?_⟩ <;> trivial

/-- C8: the retained push events are sorted ascending by creation date;
the sorted list is a permutation of the filtered feed; and the sort is
stable: any pair in feed order whose dates are in (weak) ascending
order, in particular any tied pair, stays in that order. -/
theorem C8_sort_stable (events : List Event) :
    (pushEventsOf events).Pairwise (fun a b => a.createdAt ≤ b.createdAt)
    ∧ List.Perm (pushEventsOf events) (events.filter (fun e => e.type == "PushEvent"))
    ∧ ∀ a b : Event, List.Sublist [a, b] (events.filter (fun e => e.type == "PushEvent")) →
        a.createdAt ≤ b.createdAt → List.Sublist [a, b] (pushEventsOf events) := by
  refine ⟨?_, ?_, ?_⟩
  · exact (sorted_pushEventsOf events).imp (fun h => (strLE_iff _ _).mp h)
  · exact List.perm_insertionSort eventLE _
  · intro a b hsub hle
    exact List.pair_sublist_insertionSort ((strLE_iff _ _).mpr hle) hsub

/-- C9: reconciliation first checks out the root timeline and then, if
any timeline is active, issues exactly one merge command whose argument
list is a lexicographically sorted permutation of the active timelines;
with no active timeline no merge command is issued. -/
theorem C9_reconcile (s : RunState) :
    ∃ sorted : List String,
      (reconcile noFail s).finalState.ops
        = s.ops ++ [Op.checkout "main"]
          ++ (if s.activeBranches.isEmpty then [] else [Op.mergeBranches sorted])
      ∧ List.Perm sorted s.activeBranches ∧ sorted.Pairwise stringLE := by
  refine ⟨List.insertionSort stringLE s.activeBranches, ?_, List.perm_insertionSort _ _,
    List.sorted_insertionSort _ _⟩
  rw [reconcile_noFail]
  by_cases hemp : s.activeBranches.isEmpty
  · rw [if_pos hemp, if_pos hemp]
    simp [applyOp]
  · rw [if_neg hemp, if_neg hemp]
    simp [applyOp]

theorem commits_sublist_commitsOf (e : Event) (f : Commit → String) :
    List.Sublist (e.commits.map f) ((commitsOf e).map f) := by
  unfold commitsOf
  cases hce : e.commits with
  | nil => simp
  | cons c cs =>
    simp only [List.isEmpty_cons, Bool.false_eq_true, if_false]
    exact List.Sublist.refl _

/-- C4: every sub-change message of a non-dropped event appears among
the recorded changes of the event's timeline as the timeline name, a
colon and the first line of the message, and the messages of one event
keep their original relative order. -/
theorem C4_roundtrip (fails : Op → Bool) (maxRepos : Nat) (s₀ s₁ s₂ : RunState)
    (pre post : List Event) (e : Event)
    (hpre : replayLoop fails maxRepos pre s₀ = Except.ok s₁)
    (hfull : replayLoop fails maxRepos (pre ++ e :: post) s₀ = Except.ok s₂)
    (hnd : lastSegment e.repoName ∈ s₁.reposSeen ∨ s₁.reposSeen.length < maxRepos) :
    List.Sublist
      (e.commits.map (fun c => lastSegment e.repoName ++ ": " ++ firstLine c.message))
      ((timelineLog s₂ (lastSegment e.repoName)).map Change.message) := by
  rw [replayLoop_append, hpre] at hfull
  have hfull' : replayLoop fails maxRepos (e :: post) s₁ = Except.ok s₂ := hfull
  unfold replayLoop at hfull'
  cases hpe : processEvent fails maxRepos s₁ e with
  | error t =>
    rw [hpe] at hfull'
    exact absurd hfull' (by simp)
  | ok t =>
    rw [hpe] at hfull'
    have hpost : replayLoop fails maxRepos post t = Except.ok s₂ := hfull'
    obtain ⟨_, hl, _, _, _⟩ := processEvent_ok_spec hpe hnd
    have hext := extends_replayLoop fails maxRepos post t
    rw [hpost] at hext
    simp only [stateOf_ok] at hext
    obtain ⟨tail, htail⟩ := hext.2.2.2.2
    have hlog2 : timelineLog s₂ (lastSegment e.repoName)
        = timelineLog s₁ (lastSegment e.repoName)
          ++ (commitsOf e).map
              (fun c => ⟨lastSegment e.repoName ++ ": " ++ firstLine c.message, e.createdAt⟩)
          ++ logOf tail (lastSegment e.repoName) := by
      unfold timelineLog
      rw [← htail, hl, logOf_append, logOf_append, logOf_eventChanges_self]
    rw [hlog2, List.map_append, List.map_append, List.map_map]
    refine List.Sublist.trans ?_ (List.sublist_append_left _ _)
    refine List.Sublist.trans ?_ (List.sublist_append_right _ _)
    exact commits_sublist_commitsOf e _

/-- Failure oracle under which exactly the final merge command fails. -/
def mergeOnlyFails : Op → Bool
  | Op.mergeBranches _ => true
  | _ => false

/-- A feed with a single push event carrying one commit. -/
def feedC6 : List Event :=
  [⟨"PushEvent", "alice/app", "2024-01-01T00:00:00Z", [⟨"one"⟩]⟩]

/-- C6 counterexample: with one push event and an adapter whose merge
command fails, the final merge is attempted and fails (the caught
warning branch runs), yet the process exits with code 0 — against the
claim that a merge-timelines failure yields a non-zero exit. -/
theorem C6_cex :
    (pythonMain mergeOnlyFails (some feedC6)).mergeFailed = true
    ∧ (pythonMain mergeOnlyFails (some feedC6)).exitCode = 0 := by
  decide

/-- C6 amended: the exit code is 0 exactly on the success path; a
missing feed and an empty push list exit 1; and when every command
other than the final merge succeeds, the run exits 0 even if the final
merge fails — a merge failure is caught and only logged. -/
theorem C6_exit_contract (fails : Op → Bool) (feed : Option (List Event)) :
    ((pythonMain fails feed).exitCode = 0 ↔ (pythonMain fails feed).reason = Reason.success)
    ∧ (feed = none →
        (pythonMain fails feed).exitCode = 1
        ∧ (pythonMain fails feed).reason = Reason.feedError)
    ∧ (∀ events, feed = some events → pushEventsOf events = [] →
        (pythonMain fails feed).exitCode = 1
        ∧ (pythonMain fails feed).reason = Reason.emptyHistory)
    ∧ (∀ events, feed = some events → pushEventsOf events ≠ [] →
        (∀ op, isMergeOp op = false → fails op = false) →
        (pythonMain fails feed).exitCode = 0) := by
  refine ⟨?_, ?_, ?_, ?_⟩
  · unfold pythonMain
    cases feed with
    | none => simp
    | some events => exact generate_code_iff fails MAX_REPOS events
  · intro hn
    subst hn
    exact ⟨rfl, rfl⟩
  · intro events hfeed hemp
    subst hfeed
    show (generate fails MAX_REPOS events).exitCode = 1
      ∧ (generate fails MAX_REPOS events).reason = Reason.emptyHistory
    unfold generate
    simp only [hemp]
    refine ⟨?_, ?_⟩ <;> trivial
  · intro events hfeed hne hf
    subst hfeed
    exact generate_nonMerge MAX_REPOS events hf hne

/-- First event of the C7 counterexample. -/
def evC7a : Event := ⟨"PushEvent", "alice/app", "2024-01-01T00:00:00Z", [⟨"one"⟩]⟩

/-- Second event of the C7 counterexample, a different origin project
with the same final path segment. -/
def evC7b : Event := ⟨"PushEvent", "bob/app", "2024-01-02T00:00:00Z", [⟨"two"⟩]⟩

/-- C7 counterexample: two events whose origin projects differ as
strings but share their final path segment are both assigned to one and
the same timeline: only the branch derived from the shared segment is
ever created and both messages are recorded on it. -/
theorem C7_cex :
    evC7a.repoName ≠ evC7b.repoName
    ∧ lastSegment evC7a.repoName = lastSegment evC7b.repoName
    ∧ (generate noFail MAX_REPOS [evC7a, evC7b]).finalState.createdBranches = ["app"]
    ∧ (timelineLog (generate noFail MAX_REPOS [evC7a, evC7b]).finalState "app").map
        Change.message = ["app: one", "app: two"] := by
  decide

/-- C7 amended: a non-dropped event is assigned to the timeline named
by the final path segment of its origin project — that timeline becomes
the current one and is among the created branches, and no other
timeline's recorded changes move.  Hence events whose final segments
differ go to distinct timelines, while distinct origin projects sharing
a final segment share one timeline. -/
theorem C7_assignment (fails : Op → Bool) (maxRepos : Nat) (s t : RunState) (e : Event)
    (h : processEvent fails maxRepos s e = Except.ok t)
    (hnd : lastSegment e.repoName ∈ s.reposSeen ∨ s.reposSeen.length < maxRepos) :
    t.current = lastSegment e.repoName
    ∧ lastSegment e.repoName ∈ t.createdBranches
    ∧ ∀ b : String, b ≠ lastSegment e.repoName → timelineLog t b = timelineLog s b := by
  obtain ⟨hc, hl, hr, hcb, hab⟩ := processEvent_ok_spec h hnd
  refine ⟨hc, ?_, ?_⟩
  · rw [hcb]
    by_cases hmem : lastSegment e.repoName ∈ s.createdBranches
    · rw [if_pos hmem]
      exact hmem
    · rw [if_neg hmem]
      exact List.mem_append_right _ (List.mem_singleton_self _)
  · intro b hb
    unfold timelineLog
    rw [hl, logOf_append, logOf_eventChanges_other hb, List.append_nil]

/-- C10: a completed loop iteration preserves the allocator invariant —
the three allocator sets stay equal, and every branch that consumed a
cap slot has been created and carries at least one recorded change; and
a successful run on a feed with at least one push event (under a
positive cap) reaches reconciliation with a non-empty active set. -/
theorem C10_alloc_sets (fails : Op → Bool) (maxRepos : Nat) :
    (∀ (s t : RunState) (e : Event),
        processEvent fails maxRepos s e = Except.ok t → AllocInv s → AllocInv t)
    ∧ (∀ events : List Event, 1 ≤ maxRepos → pushEventsOf events ≠ [] →
        (generate fails maxRepos events).reason = Reason.success →
        (generate fails maxRepos events).finalState.activeBranches ≠ []) := by
  constructor
  · intro s t e h hinv
    exact allocInv_processEvent h hinv
  · intro events hm hne hsucc
    unfold generate at hsucc ⊢
    cases hpe : pushEventsOf events with
    | nil => exact absurd hpe hne
    | cons first rest =>
      simp only [hpe] at hsucc ⊢
      cases hst : runOps fails (setupOps first.createdAt) initState with
      | error t =>
        simp only [hst] at hsucc
        exact absurd hsucc (by decide)
      | ok t =>
        simp only [hst] at hsucc ⊢
        cases hlp : replayLoop fails maxRepos (first :: rest) t with
        | error u =>
          simp only [hlp] at hsucc
          exact absurd hsucc (by decide)
        | ok u =>
          simp only [hlp] at hsucc ⊢
          rw [(reconcile_fields fails u).2.2.1]
          have hsets := runOps_sets fails (setupOps first.createdAt) initState
          rw [hst] at hsets
          simp only [stateOf_ok] at hsets
          have hloop : replayLoop fails maxRepos (first :: rest) t = Except.ok u := hlp
          unfold replayLoop at hloop
          cases hpe1 : processEvent fails maxRepos t first with
          | error v =>
            rw [hpe1] at hloop
            exact absurd hloop (by simp)
          | ok v =>
            rw [hpe1] at hloop
            have hrest : replayLoop fails maxRepos rest v = Except.ok u := hloop
            obtain ⟨_, _, _, _, hvact⟩ := processEvent_ok_spec hpe1 (Or.inr (by
              rw [hsets.1]
              simp only [initState, List.length_nil]
              omega))
            have hvne : v.activeBranches ≠ [] := by
              rw [hvact, hsets.2.1, hsets.2.2]
              rw [if_neg (by simp [initState])]
              simp [initState]
            have hext := extends_replayLoop fails maxRepos rest v
            rw [hrest] at hext
            simp only [stateOf_ok] at hext
            obtain ⟨tl, htl⟩ := hext.2.2.2.1
            intro hq
            rw [← htl] at hq
            exact hvne (List.append_eq_nil.mp hq).1

/-! Concrete instances for the claims with hypotheses. -/

/-- A feed naming six distinct projects, one push event each. -/
def feedC1 : List Event :=
  [⟨"PushEvent", "u/p1", "2024-01-01T00:00:00Z", [⟨"a"⟩]⟩,
   ⟨"PushEvent", "u/p2", "2024-01-01T01:00:00Z", [⟨"b"⟩]⟩,
   ⟨"PushEvent", "u/p3", "2024-01-01T02:00:00Z", [⟨"c"⟩]⟩,
   ⟨"PushEvent", "u/p4", "2024-01-01T03:00:00Z", [⟨"d"⟩]⟩,
   ⟨"PushEvent", "u/p5", "2024-01-01T04:00:00Z", [⟨"e"⟩]⟩,
   ⟨"PushEvent", "u/p6", "2024-01-01T05:00:00Z", [⟨"f"⟩]⟩]

/-- A run state whose seen set has already reached the cap of five. -/
def capState : RunState :=
  { ops := [], reposSeen := ["p1", "p2", "p3", "p4", "p5"],
    createdBranches := ["p1", "p2", "p3", "p4", "p5"],
    activeBranches := ["p1", "p2", "p3", "p4", "p5"], current := "main", log := [] }

/-- A push event from a sixth, unseen project. -/
def evCap : Event := ⟨"PushEvent", "u/p6", "2024-01-01T05:00:00Z", [⟨"f"⟩]⟩

theorem C1_witness :
    (generate noFail MAX_REPOS feedC1).finalState.createdBranches.length ≤ MAX_REPOS
    ∧ processEvent noFail MAX_REPOS capState evCap = Except.ok capState :=
  ⟨(C1_timeline_cap noFail MAX_REPOS feedC1).1,
   (C1_timeline_cap noFail MAX_REPOS feedC1).2 capState evCap (by decide) (by decide)⟩

/-- A push event with an empty commit payload. -/
def evC2 : Event := ⟨"PushEvent", "u/app", "2024-01-01T00:00:00Z", []⟩

theorem C2_witness :
    (timelineLog (stateOf (processEvent noFail MAX_REPOS initState evC2))
        (lastSegment evC2.repoName)).length
      = (timelineLog initState (lastSegment evC2.repoName)).length + max 1 evC2.commits.length
    ∧ timelineLog (stateOf (processEvent noFail MAX_REPOS initState evC2))
          (lastSegment evC2.repoName)
        = timelineLog initState (lastSegment evC2.repoName)
          ++ [⟨lastSegment evC2.repoName ++ ": Update", evC2.createdAt⟩] := by
  have h := C2_change_count noFail MAX_REPOS initState
    (stateOf (processEvent noFail MAX_REPOS initState evC2)) evC2 rfl (Or.inr (by decide))
  exact ⟨h.1, h.2 rfl⟩

/-- A push event carrying a multi-line commit message and a second
commit. -/
def evC4 : Event :=
  ⟨"PushEvent", "u/app", "2024-01-01T00:00:00Z", [⟨"first line\nrest"⟩, ⟨"second"⟩]⟩

theorem C4_witness :
    List.Sublist
      (evC4.commits.map (fun c => lastSegment evC4.repoName ++ ": " ++ firstLine c.message))
      ((timelineLog (stateOf (replayLoop noFail MAX_REPOS [evC4] initState))
          (lastSegment evC4.repoName)).map Change.message) :=
  C4_roundtrip noFail MAX_REPOS initState initState
    (stateOf (replayLoop noFail MAX_REPOS [evC4] initState)) [] [] evC4 rfl rfl
    (Or.inr (by decide))

/-- A feed whose only event is not a push event. -/
def feedC5 : List Event := [⟨"CreateEvent", "u/app", "2024-01-01T00:00:00Z", []⟩]

theorem C5_witness :
    (generate noFail MAX_REPOS feedC5).exitCode = 1
    ∧ (generate noFail MAX_REPOS feedC5).reason = Reason.emptyHistory
    ∧ (generate noFail MAX_REPOS feedC5).finalState.ops = [] :=
  C5_empty_history noFail MAX_REPOS feedC5 (by decide)

theorem C6_witness :
    ((pythonMain mergeOnlyFails (some feedC6)).exitCode = 0
      ↔ (pythonMain mergeOnlyFails (some feedC6)).reason = Reason.success)
    ∧ (pythonMain noFail none).exitCode = 1
    ∧ (pythonMain noFail none).reason = Reason.feedError
    ∧ (pythonMain mergeOnlyFails (some feedC6)).exitCode = 0 :=
  ⟨(C6_exit_contract mergeOnlyFails (some feedC6)).1,
   ((C6_exit_contract noFail none).2.1 rfl).1,
   ((C6_exit_contract noFail none).2.1 rfl).2,
   (C6_exit_contract mergeOnlyFails (some feedC6)).2.2.2 feedC6 rfl (by decide)
     (by intro op h; cases op <;> simp_all [isMergeOp, mergeOnlyFails])⟩

theorem C7_witness :
    (stateOf (processEvent noFail MAX_REPOS initState evC7a)).current
      = lastSegment evC7a.repoName
    ∧ lastSegment evC7a.repoName
        ∈ (stateOf (processEvent noFail MAX_REPOS initState evC7a)).createdBranches
    ∧ ∀ b : String, b ≠ lastSegment evC7a.repoName →
        timelineLog (stateOf (processEvent noFail MAX_REPOS initState evC7a)) b
          = timelineLog initState b :=
  C7_assignment noFail MAX_REPOS initState
    (stateOf (processEvent noFail MAX_REPOS initState evC7a)) evC7a rfl
    (Or.inr (by decide))

/-- Two push events from distinct projects with the same creation date. -/
def evC8a : Event := ⟨"PushEvent", "u/a", "2024-01-01T00:00:00Z", []⟩

/-- Second event of the tie, later in feed order. -/
def evC8b : Event := ⟨"PushEvent", "u/b", "2024-01-01T00:00:00Z", []⟩

theorem C8_witness :
    (pushEventsOf [evC8a, evC8b]).Pairwise (fun a b => a.createdAt ≤ b.createdAt)
    ∧ List.Perm (pushEventsOf [evC8a, evC8b])
        ([evC8a, evC8b].filter (fun e => e.type == "PushEvent"))
    ∧ List.Sublist [evC8a, evC8b] (pushEventsOf [evC8a, evC8b]) :=
  ⟨(C8_sort_stable [evC8a, evC8b]).1, (C8_sort_stable [evC8a, evC8b]).2.1,
   (C8_sort_stable [evC8a, evC8b]).2.2 evC8a evC8b (List.Sublist.refl _) (le_refl _)⟩

/-- A feed with a single push event, for the C10 witness. -/
def evC10 : Event := ⟨"PushEvent", "u/solo", "2024-01-01T00:00:00Z", [⟨"m"⟩]⟩

theorem C10_witness :
    AllocInv (stateOf (processEvent noFail MAX_REPOS initState evC10))
    ∧ (generate noFail MAX_REPOS [evC10]).finalState.activeBranches ≠ [] :=
  ⟨(C10_alloc_sets noFail MAX_REPOS).1 initState
      (stateOf (processEvent noFail MAX_REPOS initState evC10)) evC10 rfl
      ⟨rfl, rfl, fun b hb => absurd hb (List.not_mem_nil b)⟩,
   (C10_alloc_sets noFail MAX_REPOS).2 [evC10] (by decide) (by decide) rfl⟩

end GenPolyRepo
